import Mathlib

set_option maxRecDepth 8000
set_option maxHeartbeats 1000000

/-!
Verification development for the regex-crossword constraint engine.

The Python source represents a bounded-length regex as a disjunction of
chains of mutable character sets, with back-references encoded by shared
set identity inside one chain.  The embedding below replaces Python's
object identity by an explicit per-chain table of set values together
with a list of table indices, one per slot: two slots are the same set
object exactly when they carry the same table index.  All functions are
computable and mirror the source operation by operation; the parser
carries a fuel argument because the source parser can recurse without
progress on malformed inputs such as an unterminated bracket class.
-/

/-- A letter set, the value of one slot object. -/
abbrev LSet := Finset Char

/-- An item of a pre-chain as produced by the recursive parser:
a slot set, a back-reference marker holding the integer written after
the backslash minus one, or a group definition holding the parsed items
of the group body. -/
inductive PItem where
  | slot (s : LSet)
  | ref (d : Int)
  | group (g : List PItem)

/-- A pre-chain: the parser's representation of one way to match. -/
abbrev PreChain := List PItem

/-- Hard failures of construction.  unbalanced and unknownChar mirror the
two ValueError raises of the parser; indexError mirrors Python IndexError
on malformed input such as a lone backslash; valueError mirrors int() on
a non-digit; fuel marks inputs on which the source parser recurses
without progress; malformed marks chains in which the source would place
a non-set element, which only arises for regexes the module documents as
undefined behavior (nested groups, references inside a group body). -/
inductive PErr where
  | unbalanced
  | unknownChar (c : Char)
  | indexError
  | valueError
  | fuel
  | malformed
deriving DecidableEq

/-- Paren delta of one character in the top-level scan. -/
def pd (c : Char) : Int :=
  if c = '(' then 1 else if c = ')' then -1 else 0

/-- Net paren balance of a regex, the final value of paren_level in the
source's scanning loop. -/
def bal (cs : List Char) : Int :=
  cs.foldl (fun b c => b + pd c) 0

/-- Find the first alternation bar at paren level zero, returning the
parts before and after it, exactly as the source's scanning loop does
(the level is updated before the bar test, which is equivalent because a
bar does not change the level). -/
def topSplit : List Char → Int → Option (List Char × List Char)
  | [], _ => none
  | c :: rest, lvl =>
    let lvl2 := lvl + pd c
    if c = '|' ∧ lvl2 = 0 then some ([], rest)
    else
      match topSplit rest lvl2 with
      | some (l, r) => some (c :: l, r)
      | none => none

/-- The source's _copy_chain: the chain concatenated with itself the
given number of times.  Python deep-copies each item, which on the pure
values of this embedding is the identity; object identities are only
introduced later, during flattening. -/
def copyChain (chain : PreChain) (rep : Nat) : PreChain :=
  (List.range rep).foldl (fun acc _ => acc ++ chain) []

/-- The recursive parser _parse_regex_part.  Yields the list of
pre-chains in generator order; alf is the alphabet and L the target
length used by the quantifier bounds.  The fuel argument decreases on
every recursive call; the source recurses on a strict suffix except on
inputs such as an unterminated bracket class, where it loops forever and
this function reports PErr.fuel. -/
def parseRegex (alf : Finset Char) (L : Nat) : Nat → List Char → Except PErr (List PreChain)
  | 0, _ => .error .fuel
  | _ + 1, [] => .ok [[]]
  | fuel + 1, c :: rest =>
    match topSplit (c :: rest) 0 with
    | some (l, r) =>
      match parseRegex alf L fuel l with
      | .error e => .error e
      | .ok ls =>
        match parseRegex alf L fuel r with
        | .error e => .error e
        | .ok rs => .ok (ls ++ rs)
    | none =>
      if bal (c :: rest) ≠ 0 then .error .unbalanced
      else
        let regex := c :: rest
        let atom : Except PErr (List PreChain × Nat × Bool) :=
          if c ∈ alf then .ok ([[PItem.slot {c}]], 1, false)
          else if c = '.' then .ok ([[PItem.slot alf]], 1, false)
          else if c = '[' then
            match regex.findIdx? (fun x => x = ']') with
            | some e =>
              if regex.getD 1 ' ' = '^' then
                .ok ([[PItem.slot (alf \ ((regex.drop 2).take (e - 2)).toFinset)]], e + 1, false)
              else
                .ok ([[PItem.slot ((regex.drop 1).take (e - 1)).toFinset]], e + 1, false)
            | none =>
              if rest = [] then .error .indexError
              else if regex.getD 1 ' ' = '^' then
                .ok ([[PItem.slot (alf \ ((regex.drop 2).dropLast).toFinset)]], 0, false)
              else
                .ok ([[PItem.slot ((regex.drop 1).dropLast).toFinset]], 0, false)
          else if c = '(' then
            match regex.findIdx? (fun x => x = ')') with
            | some e =>
              match parseRegex alf L fuel ((regex.drop 1).take (e - 1)) with
              | .error er => .error er
              | .ok gs => .ok (gs, e + 1, true)
            | none =>
              match parseRegex alf L fuel ((regex.drop 1).dropLast) with
              | .error er => .error er
              | .ok gs => .ok (gs, 0, true)
          else if c = '\\' then
            match rest with
            | [] => .error .indexError
            | d :: _ =>
              if d.isDigit then .ok ([[PItem.ref ((d.toNat : Int) - 49)]], 2, false)
              else .error .valueError
          else .error (.unknownChar c)
        match atom with
        | .error e => .error e
        | .ok (chains, e1, grp) =>
          let tailCase : Unit → Except PErr (List PreChain) := fun _ =>
            match parseRegex alf L fuel (regex.drop e1) with
            | .error e => .error e
            | .ok rests =>
              .ok (rests.flatMap (fun c2 => chains.map (fun c1 =>
                if grp then PItem.group c1 :: c2 else c1 ++ c2)))
          if e1 < regex.length then
            let q := regex.getD e1 ' '
            if q = '*' then
              match parseRegex alf L fuel (regex.drop (e1 + 1)) with
              | .error e => .error e
              | .ok rests =>
                .ok (rests.flatMap (fun c2 => (List.range (L + 1)).flatMap (fun k =>
                  chains.map (fun c1 => copyChain c1 k ++ c2))))
            else if q = '+' then
              match parseRegex alf L fuel (regex.drop (e1 + 1)) with
              | .error e => .error e
              | .ok rests =>
                .ok (rests.flatMap (fun c2 => (List.range' 1 L).flatMap (fun k =>
                  chains.map (fun c1 => copyChain c1 k ++ c2))))
            else if q = '?' then
              match parseRegex alf L fuel (regex.drop (e1 + 1)) with
              | .error e => .error e
              | .ok rests =>
                .ok (rests.flatMap (fun c2 => chains.flatMap (fun c1 => [c2, c1 ++ c2])))
            else tailCase ()
          else tailCase ()

/-- A flattened item: a set object named by its table index, a raw
back-reference integer, or a nested list that a group body contributed
(only possible for undefined-behavior regexes). -/
inductive FItem where
  | cls (k : Nat)
  | fref (d : Int)
  | sub (g : List PItem)

/-- Flattening of one group body: each member set becomes a fresh table
entry; the group record and the flattened chain share these indices,
which is exactly the shared object identity of the source. -/
def groupItems : List PItem → List LSet → List LSet × List FItem
  | [], tbl => (tbl, [])
  | PItem.slot s :: t, tbl =>
    let p := groupItems t (tbl ++ [s])
    (p.1, FItem.cls tbl.length :: p.2)
  | PItem.ref d :: t, tbl =>
    let p := groupItems t tbl
    (p.1, FItem.fref d :: p.2)
  | PItem.group g :: t, tbl =>
    let p := groupItems t tbl
    (p.1, FItem.sub g :: p.2)

/-- First loop of NFSM.__init__ over one pre-chain: build the table of
set objects, the flattened item list and the list of group records. -/
def flatten1 : List PItem → List LSet → List FItem → List (List FItem) →
    List LSet × List FItem × List (List FItem)
  | [], tbl, fl, gs => (tbl, fl, gs)
  | PItem.slot s :: t, tbl, fl, gs =>
    flatten1 t (tbl ++ [s]) (fl ++ [FItem.cls tbl.length]) gs
  | PItem.ref d :: t, tbl, fl, gs =>
    flatten1 t tbl (fl ++ [FItem.fref d]) gs
  | PItem.group g :: t, tbl, fl, gs =>
    let p := groupItems g tbl
    flatten1 t p.1 (fl ++ p.2) (gs ++ [p.2])

/-- Python list indexing with negative wraparound, returning none where
Python raises IndexError. -/
def pyIndex (l : List (List FItem)) (d : Int) : Option (List FItem) :=
  if 0 ≤ d then l.get? d.toNat
  else
    let j : Int := (l.length : Int) + d
    if 0 ≤ j then l.get? j.toNat else none

/-- Keep a group record only when every member is a set object. -/
def clsOnly : List FItem → Option (List Nat)
  | [] => some []
  | FItem.cls k :: t => (clsOnly t).map (fun r => k :: r)
  | _ => none

/-- Second loop of NFSM.__init__: splice each back-reference with the
very indices recorded for the referenced group, so definition and
reference positions name the same set object. -/
def derefs (gs : List (List FItem)) : List FItem → Except PErr (List Nat)
  | [] => .ok []
  | FItem.cls k :: t =>
    match derefs gs t with
    | .error e => .error e
    | .ok r => .ok (k :: r)
  | FItem.fref d :: t =>
    match pyIndex gs d with
    | none => .error .indexError
    | some grp =>
      match clsOnly grp with
      | none => .error .malformed
      | some ks =>
        match derefs gs t with
        | .error e => .error e
        | .ok r => .ok (ks ++ r)
  | FItem.sub _ :: _ => .error .malformed

/-- A chain: a table of set objects and, for each slot, the index of the
set object sitting at that slot.  Aliasing of two slots is sameness of
their indices. -/
structure Chain where
  table : List LSet
  slots : List Nat
deriving DecidableEq

/-- Flatten and dereference one pre-chain. -/
def flattenChain (p : PreChain) : Except PErr Chain :=
  let f := flatten1 p [] [] []
  match derefs f.2.2 f.2.1 with
  | .error e => .error e
  | .ok slots => .ok ⟨f.1, slots⟩

/-- Flatten every pre-chain, stopping at the first failure as the
raising loop of the source does. -/
def flattenAll : List PreChain → Except PErr (List Chain)
  | [] => .ok []
  | p :: ps =>
    match flattenChain p with
    | .error e => .error e
    | .ok c =>
      match flattenAll ps with
      | .error e => .error e
      | .ok cs => .ok (c :: cs)

/-- The nondeterministic finite state machine: fixed length, alphabet,
and the current list of chains. -/
structure NFSM where
  length : Nat
  alphabet : Finset Char
  chains : List Chain
deriving DecidableEq

/-- NFSM construction: parse, flatten with back-reference splicing, and
keep only the chains of exactly the requested length. -/
def NFSM.mk? (regex : List Char) (L : Nat) (alf : Finset Char) (fuel : Nat) :
    Except PErr NFSM :=
  match parseRegex alf L fuel regex with
  | .error e => .error e
  | .ok pres =>
    match flattenAll pres with
    | .error e => .error e
    | .ok cs => .ok ⟨L, alf, cs.filter (fun c => c.slots.length == L)⟩

/-- The set value currently held by slot i of a chain. -/
def Chain.slotSet (c : Chain) (i : Nat) : LSet :=
  c.table.getD (c.slots.getD i 0) ∅

/-- Intersect the set object at slot i with a constraint set; every slot
sharing that object sees the new value. -/
def Chain.constrain (c : Chain) (i : Nat) (s : LSet) : Chain :=
  ⟨c.table.set (c.slots.getD i 0) (c.table.getD (c.slots.getD i 0) ∅ ∩ s), c.slots⟩

/-- One chain's fate under constrain_slot: the mutated chain when slot i
stays nonempty, and nothing when the chain is dropped. -/
def chainStep (c : Chain) (i : Nat) (s : LSet) : Option Chain :=
  if ((c.constrain i s).slotSet i).Nonempty then some (c.constrain i s) else none

/-- NFSM.constrain_slot: rebuild the chain list with the surviving
mutated chains in their prior order. -/
def NFSM.constrainSlot (n : NFSM) (i : Nat) (s : LSet) : NFSM :=
  ⟨n.length, n.alphabet,
    n.chains.foldl (fun acc ch =>
      if ((ch.constrain i s).slotSet i).Nonempty then acc ++ [ch.constrain i s]
      else acc) []⟩

/-- NFSM.peek_slot: union of slot i over all surviving chains. -/
def NFSM.peekSlot (n : NFSM) (i : Nat) : LSet :=
  n.chains.foldl (fun acc ch => acc ∪ ch.slotSet i) ∅

/-- Chain copy preserving aliasing: walk the slots keeping a map from
old table index to new table index, allocating a new table entry at the
first encounter only, exactly like the ids dictionary of NFSM.copy. -/
def copyFrom (t0 : List LSet) : List Nat → List (Nat × Nat) → List LSet → List Nat →
    List (Nat × Nat) × List LSet × List Nat
  | [], ids, tbl, sl => (ids, tbl, sl)
  | k :: ks, ids, tbl, sl =>
    match ids.lookup k with
    | some k2 => copyFrom t0 ks ids tbl (sl ++ [k2])
    | none =>
      copyFrom t0 ks ((k, tbl.length) :: ids) (tbl ++ [t0.getD k ∅]) (sl ++ [tbl.length])

/-- Copy of one chain. -/
def Chain.copy (c : Chain) : Chain :=
  ⟨(copyFrom c.table c.slots [] [] []).2.1, (copyFrom c.table c.slots [] [] []).2.2⟩

/-- NFSM.copy: same length and alphabet, chains copied one by one.  The
source first builds a scratch NFSM from the regex dot-star and then
replaces its chain list; the net effect is exactly this record. -/
def NFSM.copy (n : NFSM) : NFSM :=
  ⟨n.length, n.alphabet, n.chains.map Chain.copy⟩

/-- NFSM.match: strings of the wrong length never match; otherwise
constrain a copy with the singleton of each character and report whether
any chain survives. -/
def NFSM.matchStr (n : NFSM) (s : List Char) : Bool :=
  if s.length ≠ n.length then false
  else
    let m := s.enum.foldl (fun m p => m.constrainSlot p.1 {p.2}) n.copy
    !m.chains.isEmpty

/-- The hex grid state: six link maps (association lists from cell id to
cell id, each link assigned at most once during construction), the three
edge-anchor lists, the rows in order of construction (top row first,
used to state which row a traversal yields), and the id of the next cell
to allocate; ids are allocated in Python object-creation order. -/
structure HG where
  right : List (Nat × Nat)
  left : List (Nat × Nat)
  ul : List (Nat × Nat)
  ur : List (Nat × Nat)
  ll : List (Nat × Nat)
  lr : List (Nat × Nat)
  leftedges : List Nat
  uredges : List Nat
  lredges : List Nat
  rows : List (List Nat)
  nextId : Nat

/-- Create the inner cells of a new row, one per adjacent pair of the
previous row, wiring ul and ur with their reciprocal lr and ll links. -/
def addInner (g : HG) : List (Nat × Nat) → HG × List Nat
  | [] => (g, [])
  | (ulN, urN) :: t =>
    let cid := g.nextId
    let g2 := { g with
                nextId := cid + 1
                ul := g.ul ++ [(cid, ulN)], lr := g.lr ++ [(ulN, cid)]
                ur := g.ur ++ [(cid, urN)], ll := g.ll ++ [(urN, cid)] }
    let p := addInner g2 t
    (p.1, cid :: p.2)

/-- Pairs of consecutive cells of a row, for the left-right wiring. -/
def rowPairs (row : List Nat) : List (Nat × Nat) :=
  row.zip row.tail

/-- HexGrid._newrow_expand: a leftmost cell under prev's first cell, one
inner cell per adjacent pair, a rightmost cell under prev's last cell;
link the row, record its first cell in leftedges and its last in
uredges. -/
def hgExpand (g : HG) (prev : List Nat) : HG × List Nat :=
  let c0 := g.nextId
  let g1 := { g with
              nextId := c0 + 1
              ll := g.ll ++ [(prev.headD 0, c0)]
              ur := g.ur ++ [(c0, prev.headD 0)] }
  let p := addInner g1 (rowPairs prev)
  let cl := p.1.nextId
  let g2 := { p.1 with
              nextId := cl + 1
              ul := p.1.ul ++ [(cl, prev.getLast?.getD 0)]
              lr := p.1.lr ++ [(prev.getLast?.getD 0, cl)] }
  let newrow := c0 :: p.2 ++ [cl]
  let g3 := { g2 with
              right := g2.right ++ rowPairs newrow
              left := g2.left ++ (rowPairs newrow).map (fun q => (q.2, q.1))
              leftedges := g2.leftedges ++ [c0]
              uredges := g2.uredges ++ [cl]
              rows := g2.rows ++ [newrow] }
  (g3, newrow)

/-- HexGrid._newrow_contract: only the inner cells; record the new row's
first cell in leftedges and its last in lredges. -/
def hgContract (g : HG) (prev : List Nat) : HG × List Nat :=
  let p := addInner g (rowPairs prev)
  let newrow := p.2
  let g2 := { p.1 with
              right := p.1.right ++ rowPairs newrow
              left := p.1.left ++ (rowPairs newrow).map (fun q => (q.2, q.1))
              leftedges := p.1.leftedges ++ [newrow.headD 0]
              lredges := p.1.lredges ++ [newrow.getLast?.getD 0]
              rows := p.1.rows ++ [newrow] }
  (g2, newrow)

/-- HexGrid.__init__: top row, S-1 expansions, middle-row registration
into lredges, S-1 contractions, the reversed interior of the bottom row
into lredges, and finally the reversal of leftedges. -/
def hexGridBuild (S : Nat) : HG :=
  let top := List.range S
  let g0 : HG := {
    right := rowPairs top
    left := (rowPairs top).map (fun q => (q.2, q.1))
    ul := [], ur := [], ll := [], lr := []
    leftedges := [top.headD 0]
    uredges := top
    lredges := []
    rows := [top]
    nextId := S }
  let e := (List.range (S - 1)).foldl (fun pr _ => hgExpand pr.1 pr.2) (g0, top)
  let g1 := { e.1 with lredges := e.1.lredges ++ [e.2.getLast?.getD 0] }
  let f := (List.range (S - 1)).foldl (fun pr _ => hgContract pr.1 pr.2) (g1, e.2)
  let g2 := { f.1 with lredges := f.1.lredges ++ f.2.dropLast.reverse }
  { g2 with leftedges := g2.leftedges.reverse }

/-- First-match association lookup for the link maps. -/
def alookupN : List (Nat × Nat) → Nat → Option Nat
  | [], _ => none
  | (a, b) :: t, k => if a = k then some b else alookupN t k

/-- Follow a link map from a starting cell until the link is absent; the
fuel bounds the walk, and every walk in the side-7 grid ends well before
the fuel runs out. -/
def walk (links : List (Nat × Nat)) : Option Nat → Nat → List Nat
  | _, 0 => []
  | none, _ + 1 => []
  | some c, fuel + 1 => c :: walk links (alookupN links c) fuel

/-- HexGrid.traverse_l2r. -/
def HG.l2r (g : HG) (i : Nat) : List Nat :=
  walk g.right (g.leftedges.get? i) 200

/-- HexGrid.traverse_ur2ll. -/
def HG.trUr2ll (g : HG) (i : Nat) : List Nat :=
  walk g.ll (g.uredges.get? i) 200

/-- HexGrid.traverse_lr2ul. -/
def HG.trLr2ul (g : HG) (i : Nat) : List Nat :=
  walk g.ul (g.lredges.get? i) 200

/-- The side-7 grid of the puzzle. -/
def hexGrid7 : HG := hexGridBuild 7

/-- The driver state of the propagation loop in main: the cell store
(one letter set per grid cell, indexed by cell id) and the bindings,
each an NFSM paired with the ids of the cells along its line. -/
structure DState where
  store : List LSet
  binds : List (NFSM × List Nat)

/-- Step 1 of an iteration for one binding: push every cell's current
set into the corresponding slot. -/
def bindingConstrain (st : List LSet) (b : NFSM × List Nat) : NFSM :=
  b.2.enum.foldl (fun m p => m.constrainSlot p.1 (st.getD p.2 ∅)) b.1

/-- Step 1 of an iteration: apply board constraints to every regex. -/
def pass1 (s : DState) : DState :=
  ⟨s.store, s.binds.map (fun b => (bindingConstrain s.store b, b.2))⟩

/-- One cell update of step 2: intersect the cell with the peeked slot,
recording in the flag whether the cell was left unchanged. -/
def cellStep (a : List LSet × Bool) (m : NFSM) (p : Nat × Nat) : List LSet × Bool :=
  let old := a.1.getD p.2 ∅
  let nw := old ∩ m.peekSlot p.1
  (a.1.set p.2 nw, a.2 && decide (old = nw))

/-- Step 2 of an iteration: pull the regex constraints back into the
board, keeping the finished flag true exactly when no cell changed. -/
def pass2 (s : DState) : DState × Bool :=
  let r := s.binds.foldl
    (fun a b => b.2.enum.foldl (fun a2 p => cellStep a2 b.1 p) a)
    (s.store, true)
  (⟨r.1, s.binds⟩, r.2)

/-- One full iteration of the fixed-point loop of main. -/
def dstep (s : DState) : DState × Bool := pass2 (pass1 s)

/-- The state after one iteration. -/
def dstepState (s : DState) : DState := (dstep s).1

/-- The finished flag computed by one iteration. -/
def dstepFlag (s : DState) : Bool := (dstep s).2

/-- The state after t iterations. -/
def stepIter : Nat → DState → DState
  | 0, s => s
  | t + 1, s => stepIter t (dstepState s)

/-- Total number of candidate letters left on the board. -/
def potential (st : List LSet) : Nat :=
  (st.map Finset.card).sum

/-- The 26-letter uppercase alphabet of the puzzle. -/
def alphaAZ : Finset Char := "ABCDEFGHIJKLMNOPQRSTUVWXYZ".toList.toFinset

/-- The three-letter alphabet used by the unit-style scenarios. -/
def abc : Finset Char := {'A', 'B', 'C'}

/-- Extract a constructed NFSM, with a harmless placeholder on error. -/
def unwrap : Except PErr NFSM → NFSM
  | .ok n => n
  | .error _ => ⟨0, ∅, []⟩

/-- The puzzle NFSM of the DI-NS-TH-OM scenario, length 8 over A to Z. -/
def n4 : NFSM := unwrap (NFSM.mk? "(DI|NS|TH|OM)*".toList 8 alphaAZ 60)

/-- The back-reference NFSM of the dot-group scenario. -/
def nBack : NFSM := unwrap (NFSM.mk? "(.)\\1".toList 2 abc 60)

/-- The NFSM built from the full-alphabet negated class. -/
def nEmptySlot : NFSM := unwrap (NFSM.mk? "[^ABC]".toList 1 abc 60)

/-- The NFSM built from a bracket class holding a letter outside the
alphabet. -/
def nBracketA : NFSM := unwrap (NFSM.mk? "[a]".toList 1 abc 60)

instance {ε α : Type} [DecidableEq ε] [DecidableEq α] : DecidableEq (Except ε α) :=
  fun a b =>
    match a, b with
    | .ok x, .ok y => decidable_of_iff (x = y) ⟨congrArg Except.ok, Except.ok.inj⟩
    | .error e, .error f => decidable_of_iff (e = f) ⟨congrArg Except.error, Except.error.inj⟩
    | .ok _, .error _ => isFalse fun h => Except.noConfusion h
    | .error _, .ok _ => isFalse fun h => Except.noConfusion h

/-- Invariant of the identity-preserving copy walk: the new slot list is
as long as the processed part, each processed old index is mapped by the
ids dictionary to its recorded new index, every mapped new index is in
range and carries the old set value, and the mapping is injective. -/
def CopyInv (t0 : List LSet) (done : List Nat) (ids : List (Nat × Nat))
    (tbl : List LSet) (sl : List Nat) : Prop :=
  sl.length = done.length
  ∧ (∀ m, m < done.length → ids.lookup (done.getD m 0) = some (sl.getD m 0))
  ∧ (∀ k k2, ids.lookup k = some k2 → k2 < tbl.length ∧ tbl.getD k2 ∅ = t0.getD k ∅)
  ∧ (∀ k1 k2 k3, ids.lookup k1 = some k3 → ids.lookup k2 = some k3 → k1 = k2)

/-- Fate of one chain under the sequence of singleton constraints that
match applies, one per position. -/
def chainRun (c : Chain) (ps : List (Nat × Char)) : Option Chain :=
  ps.foldl (fun oc p => oc.bind (fun ch => chainStep ch p.1 {p.2})) (some c)

/-- The declarative survival condition of a chain: every constrained
character lies in its slot, and two positions whose slots are the same
set object receive the same character. -/
def chainOK (c : Chain) (ps : List (Nat × Char)) : Prop :=
  (∀ p ∈ ps, p.2 ∈ c.slotSet p.1)
  ∧ (∀ p ∈ ps, ∀ q ∈ ps, c.slots.getD p.1 0 = c.slots.getD q.1 0 → p.2 = q.2)

/-- The value of set object k after all the singleton constraints of ps
that target a position holding object k. -/
def classFold (c : Chain) (ps : List (Nat × Char)) (k : Nat) : LSet :=
  (ps.filter (fun p => c.slots.getD p.1 0 == k)).foldl
    (fun acc p => acc ∩ {p.2}) (c.table.getD k ∅)

/-- Invariant of step 2 of an iteration, relative to the store at the
start of the pass: same store length, pointwise shrinking, non-increasing
potential, and a false finished flag certifies a strict potential drop. -/
def P2Inv (st0 : List LSet) (a : List LSet × Bool) : Prop :=
  a.1.length = st0.length
  ∧ (∀ k, a.1.getD k ∅ ⊆ st0.getD k ∅)
  ∧ potential a.1 ≤ potential st0
  ∧ (a.2 = false → potential a.1 < potential st0)

/-- Claim C4: evaluation of the code at the scenario inputs.  The
construction of the DI-NS-TH-OM machine succeeds, but because the Kleene
branch of the parser repeats one alternative of the group rather than
mixing alternatives, the length-8 chains are the four pure repetitions;
match of the mixed string DINSTHOM therefore returns false, both before
and after the constraint, while the claim and the module's own test
test_multi_or require true.  The two negative scenario assertions do
hold. -/
theorem c4_dinsthom_code_eval :
    NFSM.mk? "(DI|NS|TH|OM)*".toList 8 alphaAZ 60 = .ok n4
    ∧ n4.matchStr "DIDIDIDI".toList = true
    ∧ n4.matchStr "DINSTHOM".toList = false
    ∧ n4.matchStr "ADINSTHOZ".toList = false
    ∧ (n4.constrainSlot 0 {'D', 'Z'}).matchStr "OMTHNSDI".toList = false
    ∧ (n4.constrainSlot 0 {'D', 'Z'}).matchStr "DINSTHOM".toList = false := by
  refine ⟨by decide, by decide, by decide, by decide, by decide, by decide⟩

/-- Claim C9: in the side-7 grid every traversal family has the line
lengths 7 to 13 and back, visits 127 distinct cell identities, and the
three families visit the same identities. -/
theorem c9_traversal_families :
    (List.range 13).map (fun i => (hexGrid7.l2r i).length)
        = [7, 8, 9, 10, 11, 12, 13, 12, 11, 10, 9, 8, 7]
    ∧ (List.range 13).map (fun i => (hexGrid7.trUr2ll i).length)
        = [7, 8, 9, 10, 11, 12, 13, 12, 11, 10, 9, 8, 7]
    ∧ (List.range 13).map (fun i => (hexGrid7.trLr2ul i).length)
        = [7, 8, 9, 10, 11, 12, 13, 12, 11, 10, 9, 8, 7]
    ∧ ((List.range 13).flatMap (fun i => hexGrid7.l2r i)).toFinset.card = 127
    ∧ ((List.range 13).flatMap (fun i => hexGrid7.trUr2ll i)).toFinset.card = 127
    ∧ ((List.range 13).flatMap (fun i => hexGrid7.trLr2ul i)).toFinset.card = 127
    ∧ ((List.range 13).flatMap (fun i => hexGrid7.l2r i)).toFinset
        = ((List.range 13).flatMap (fun i => hexGrid7.trUr2ll i)).toFinset
    ∧ ((List.range 13).flatMap (fun i => hexGrid7.l2r i)).toFinset
        = ((List.range 13).flatMap (fun i => hexGrid7.trLr2ul i)).toFinset := by
  refine ⟨by decide, by decide, by decide, by decide, by decide, by decide, by decide, by decide⟩

/-- Claim C10, counterexample: walking right from leftedges zero gives
the bottom construction row, not the topmost one, because the
constructor reverses leftedges at the end. -/
theorem c10_topmost_counterexample :
    hexGrid7.l2r 0 ≠ hexGrid7.rows.getD 0 []
    ∧ hexGrid7.l2r 0 = hexGrid7.rows.getD 12 []
    ∧ hexGrid7.rows.length = 13
    ∧ hexGrid7.rows.getD 0 [] = List.range 7 := by
  refine ⟨by decide, by decide, by decide, by decide⟩

/-- Claim C10, amended: leftedges walked via the right links yields the
construction rows bottom to top; line i is row twelve minus i counted
from the top. -/
theorem c10_rows_bottom_to_top :
    ∀ i, i < 13 → hexGrid7.l2r i = hexGrid7.rows.getD (12 - i) [] := by
  decide

/-- Witness for the amended claim C10 at line five. -/
theorem c10_rows_bottom_to_top_witness :
    hexGrid7.l2r 5 = hexGrid7.rows.getD 7 [] :=
  c10_rows_bottom_to_top 5 (by decide)

/-- Claim C8, counterexample: a bracket class containing a letter that
is outside the alphabet and is no metacharacter constructs successfully,
so an unknown character inside a class is not a hard error. -/
theorem c8_bracket_class_counterexample :
    NFSM.mk? "[a]".toList 1 abc 60 = .ok ⟨1, abc, [⟨[{'a'}], [0]⟩]⟩
    ∧ 'a' ∉ abc
    ∧ 'a' ∉ (['.', '[', ']', '^', '(', ')', '\\', '|', '*', '+', '?'] : List Char)
    ∧ 'a'.isDigit = false := by
  refine ⟨by decide, by decide, by decide, by decide⟩

/-- Claim C3, counterexample: the machine built from the negation of the
whole alphabet has, immediately after construction, a single chain whose
only slot is empty; empty slots are pruned only by constrain_slot. -/
theorem c3_empty_slot_counterexample :
    NFSM.mk? "[^ABC]".toList 1 abc 60 = .ok nEmptySlot
    ∧ nEmptySlot.chains.length = 1
    ∧ (nEmptySlot.chains.getD 0 ⟨[], []⟩).slots.length = nEmptySlot.length
    ∧ (nEmptySlot.chains.getD 0 ⟨[], []⟩).slotSet 0 = ∅ := by
  refine ⟨by decide, by decide, by decide, by decide⟩

/-- Claim C1, counterexample: in the dot-group back-reference machine the
single chain contains each character of the string AB in the respective
slot, and the string has the right length, yet match returns false,
because the two slots are one shared set object and the two singleton
constraints empty it. -/
theorem c1_match_chain_counterexample :
    NFSM.mk? "(.)\\1".toList 2 abc 60 = .ok nBack
    ∧ nBack.length = 2
    ∧ nBack.chains.length = 1
    ∧ 'A' ∈ (nBack.chains.getD 0 ⟨[], []⟩).slotSet 0
    ∧ 'B' ∈ (nBack.chains.getD 0 ⟨[], []⟩).slotSet 1
    ∧ nBack.matchStr ['A', 'B'] = false := by
  refine ⟨by decide, by decide, by decide, by decide, by decide, by decide⟩

theorem lgetD_set_eq {α : Type} (l : List α) (i : Nat) (v d : α) (h : i < l.length) :
    (l.set i v).getD i d = v := by
  simp [List.getD_eq_getElem?_getD, List.getElem?_set_self h]

theorem lgetD_set_ne {α : Type} (l : List α) {i j : Nat} (v d : α) (h : i ≠ j) :
    (l.set i v).getD j d = l.getD j d := by
  simp [List.getD_eq_getElem?_getD, List.getElem?_set_ne h]

theorem lgetD_oob {α : Type} (l : List α) {i : Nat} (d : α) (h : l.length ≤ i) :
    l.getD i d = d := by
  simp [List.getD_eq_getElem?_getD, List.getElem?_eq_none h]

theorem lgetD_append_left {α : Type} (l₁ l₂ : List α) {i : Nat} (d : α) (h : i < l₁.length) :
    (l₁ ++ l₂).getD i d = l₁.getD i d := by
  simp [List.getD_eq_getElem?_getD, List.getElem?_append_left h]

theorem lgetD_concat_length {α : Type} (l : List α) (x d : α) :
    (l ++ [x]).getD l.length d = x := by
  simp [List.getD_eq_getElem?_getD, List.getElem?_concat_length]

/-- The value of any slot after constrain_slot: slots aliasing the
constrained object see the intersection, all other slots are unchanged. -/
theorem slotSet_constrain (c : Chain) (i j : Nat) (s : LSet) :
    (c.constrain i s).slotSet j =
      if c.slots.getD j 0 = c.slots.getD i 0 then c.slotSet i ∩ s else c.slotSet j := by
  simp only [Chain.constrain, Chain.slotSet]
  by_cases hc : c.slots.getD j 0 = c.slots.getD i 0
  · rw [if_pos hc, hc]
    by_cases hk : c.slots.getD i 0 < c.table.length
    · rw [lgetD_set_eq _ _ _ _ hk]
    · rw [List.set_eq_of_length_le (Nat.le_of_not_lt hk),
        lgetD_oob _ _ (Nat.le_of_not_lt hk)]
      simp
  · rw [if_neg hc, lgetD_set_ne _ _ _ (fun h => hc h.symm)]

/-- constrain_slot leaves the slot index list untouched. -/
theorem constrain_slots (c : Chain) (i : Nat) (s : LSet) :
    (c.constrain i s).slots = c.slots := rfl

theorem constrainSlot_chains_aux (i : Nat) (s : LSet) (l : List Chain) (acc : List Chain) :
    l.foldl (fun acc ch =>
        if ((ch.constrain i s).slotSet i).Nonempty then acc ++ [ch.constrain i s]
        else acc) acc
      = acc ++ l.filterMap (fun c => chainStep c i s) := by
  induction l generalizing acc with
  | nil => simp
  | cons c t ih =>
    by_cases hfc : ((c.constrain i s).slotSet i).Nonempty
    · simp [List.foldl_cons, hfc, ih, List.filterMap_cons, chainStep]
    · simp [List.foldl_cons, hfc, ih, List.filterMap_cons, chainStep]

/-- The loop of constrain_slot is the filterMap of the per-chain fate. -/
theorem constrainSlot_chains (n : NFSM) (i : Nat) (s : LSet) :
    (n.constrainSlot i s).chains = n.chains.filterMap (fun c => chainStep c i s) := by
  simp only [NFSM.constrainSlot]
  exact (constrainSlot_chains_aux i s n.chains []).trans (List.nil_append _)

/-- The survival test of constrain_slot checks the intersection of the
prior slot value with the constraint. -/
theorem chainStep_eq_if (c : Chain) (i : Nat) (s : LSet) :
    chainStep c i s
      = if (c.slotSet i ∩ s).Nonempty then some (c.constrain i s) else none := by
  unfold chainStep
  rw [slotSet_constrain, if_pos rfl]

theorem constrainSlot_length (n : NFSM) (i : Nat) (s : LSet) :
    (n.constrainSlot i s).length = n.length := rfl

/-- Claim C2: constrain_slot keeps exactly the chains whose slot i meets
the constraint set, in their prior order, replacing the shared set
object by the intersection; every slot aliasing the constrained object
holds the intersection as well, and non-aliasing slots are unchanged. -/
theorem c2_constrain_slot_spec :
    ∀ (n : NFSM) (i : Nat) (s : LSet),
      (n.constrainSlot i s).chains
          = n.chains.filterMap (fun c =>
              if (c.slotSet i ∩ s).Nonempty then some (c.constrain i s) else none)
      ∧ (∀ c : Chain, ∀ j, c.slots.getD j 0 = c.slots.getD i 0 →
          (c.constrain i s).slotSet j = c.slotSet i ∩ s)
      ∧ (∀ c : Chain, ∀ j, c.slots.getD j 0 ≠ c.slots.getD i 0 →
          (c.constrain i s).slotSet j = c.slotSet j) := by
  intro n i s
  refine ⟨?_, ?_, ?_⟩
  · rw [constrainSlot_chains]
    exact List.filterMap_congr (fun c _ => chainStep_eq_if c i s)
  · intro c j hj
    rw [slotSet_constrain, if_pos hj]
  · intro c j hj
    rw [slotSet_constrain, if_neg hj]

/-- Witness for claim C2 at the back-reference machine: the filterMap
description of the chain list and the propagation of a constraint on
slot zero to the aliasing slot one. -/
theorem c2_constrain_slot_spec_witness :
    (nBack.constrainSlot 0 {'A'}).chains
        = nBack.chains.filterMap (fun c =>
            if (c.slotSet 0 ∩ {'A'}).Nonempty then some (c.constrain 0 {'A'}) else none)
    ∧ ((⟨[abc], [0, 0]⟩ : Chain).constrain 0 {'A'}).slotSet 1
        = (⟨[abc], [0, 0]⟩ : Chain).slotSet 0 ∩ {'A'} :=
  ⟨(c2_constrain_slot_spec nBack 0 {'A'}).1,
   (c2_constrain_slot_spec nBack 0 {'A'}).2.1 ⟨[abc], [0, 0]⟩ 1 (by decide)⟩

/-- Claim C3, amended: every chain has length exactly the machine length
after construction, and constrain_slot preserves chain length, keeps
only chains whose constrained slot is nonempty, and never introduces an
empty slot into a chain that had none; however construction itself can
leave an empty slot (see the counterexample), since pruning happens only
in constrain_slot. -/
theorem c3_invariants_amended :
    (∀ (regex : List Char) (L : Nat) (alf : Finset Char) (fuel : Nat) (n : NFSM),
        NFSM.mk? regex L alf fuel = .ok n →
        n.length = L ∧ ∀ c ∈ n.chains, c.slots.length = n.length)
    ∧ (∀ (n : NFSM) (i : Nat) (s : LSet) (c : Chain),
        c ∈ (n.constrainSlot i s).chains →
        ∃ c0, c0 ∈ n.chains ∧ c.slots = c0.slots ∧ (c.slotSet i).Nonempty)
    ∧ (∀ (n : NFSM) (i : Nat) (s : LSet),
        (∀ c ∈ n.chains, ∀ j, j < n.length → (c.slotSet j).Nonempty) →
        ∀ c ∈ (n.constrainSlot i s).chains, ∀ j, j < n.length → (c.slotSet j).Nonempty) := by
  refine ⟨?_, ?_, ?_⟩
  · intro regex L alf fuel n h
    unfold NFSM.mk? at h
    cases hp : parseRegex alf L fuel regex with
    | error e =>
      simp only [hp] at h
      exact absurd h (by simp)
    | ok pres =>
      simp only [hp] at h
      cases hf : flattenAll pres with
      | error e =>
        simp only [hf] at h
        exact absurd h (by simp)
      | ok cs =>
        simp only [hf] at h
        injection h with h2
        subst h2
        refine ⟨rfl, ?_⟩
        intro c hc
        simpa using (List.mem_filter.mp hc).2
  · intro n i s c hc
    rw [constrainSlot_chains] at hc
    obtain ⟨c0, hc0, hstep⟩ := List.mem_filterMap.mp hc
    unfold chainStep at hstep
    by_cases h : ((c0.constrain i s).slotSet i).Nonempty
    · rw [if_pos h] at hstep
      have he := Option.some.inj hstep
      refine ⟨c0, hc0, ?_, ?_⟩
      · rw [← he, constrain_slots]
      · rw [← he]; exact h
    · rw [if_neg h] at hstep
      exact absurd hstep (by simp)
  · intro n i s hyp c hc j hj
    rw [constrainSlot_chains] at hc
    obtain ⟨c0, hc0, hstep⟩ := List.mem_filterMap.mp hc
    unfold chainStep at hstep
    by_cases h : ((c0.constrain i s).slotSet i).Nonempty
    · rw [if_pos h] at hstep
      have he := Option.some.inj hstep
      rw [slotSet_constrain, if_pos rfl] at h
      subst he
      by_cases halias : c0.slots.getD j 0 = c0.slots.getD i 0
      · rw [slotSet_constrain, if_pos halias]
        exact h
      · rw [slotSet_constrain, if_neg halias]
        exact hyp c0 hc0 j hj
    · rw [if_neg h] at hstep
      exact absurd hstep (by simp)

/-- Witness for the amended claim C3: length facts after building the
dot-group machine, and preservation of nonempty slots under a
constraint on the back-reference machine. -/
theorem c3_invariants_amended_witness :
    (nBack.length = 2 ∧ ∀ c ∈ nBack.chains, c.slots.length = nBack.length)
    ∧ (∀ c ∈ (nBack.constrainSlot 0 {'A'}).chains, ∀ j, j < nBack.length →
        (c.slotSet j).Nonempty) :=
  ⟨c3_invariants_amended.1 "(.)\\1".toList 2 abc 60 nBack (by decide),
   c3_invariants_amended.2.2 nBack 0 {'A'} (by decide)⟩

/-- Claim C5: the unquantified dot group with a back-reference yields
exactly one chain whose two slots carry the same table index, hence the
same set object; and in any chain, constraining either one of two
aliased positions updates the set seen at the other. -/
theorem c5_backref_aliasing :
    (NFSM.mk? "(.)\\1".toList 2 abc 60 = .ok nBack
      ∧ nBack.chains = [⟨[abc], [0, 0]⟩])
    ∧ (∀ (c : Chain) (i j : Nat) (s : LSet), c.slots.getD j 0 = c.slots.getD i 0 →
        (c.constrain i s).slotSet j = c.slotSet i ∩ s
        ∧ (c.constrain j s).slotSet i = c.slotSet j ∩ s) := by
  constructor
  · exact ⟨by decide, by decide⟩
  · intro c i j s h
    constructor
    · rw [slotSet_constrain, if_pos h]
    · rw [slotSet_constrain, if_pos h.symm]

/-- Witness for claim C5 on the chain of the dot-group machine. -/
theorem c5_backref_aliasing_witness :
    ((⟨[abc], [0, 0]⟩ : Chain).constrain 0 {'B', 'C'}).slotSet 1
        = (⟨[abc], [0, 0]⟩ : Chain).slotSet 0 ∩ {'B', 'C'}
    ∧ ((⟨[abc], [0, 0]⟩ : Chain).constrain 1 {'B', 'C'}).slotSet 0
        = (⟨[abc], [0, 0]⟩ : Chain).slotSet 1 ∩ {'B', 'C'} :=
  c5_backref_aliasing.2 ⟨[abc], [0, 0]⟩ 0 1 {'B', 'C'} (by decide)

theorem lookup_cons_nat (l : List (Nat × Nat)) (a b x : Nat) :
    ((a, b) :: l).lookup x = if x = a then some b else l.lookup x := by
  by_cases h : x = a
  · simp [List.lookup, h]
  · have hb : (x == a) = false := by simp [h]
    simp [List.lookup, hb, h]

theorem copyInv_nil (t0 : List LSet) : CopyInv t0 [] [] [] [] := by
  refine ⟨rfl, ?_, ?_, ?_⟩
  · intro m hm
    exact absurd hm (Nat.not_lt_zero m)
  · intro k k2 h
    simp [List.lookup] at h
  · intro k1 k2 k3 h
    simp [List.lookup] at h

theorem copyInv_step_some {t0 : List LSet} {done : List Nat} {ids : List (Nat × Nat)}
    {tbl : List LSet} {sl : List Nat} {k k2 : Nat}
    (hinv : CopyInv t0 done ids tbl sl) (hl : ids.lookup k = some k2) :
    CopyInv t0 (done ++ [k]) ids tbl (sl ++ [k2]) := by
  obtain ⟨h1, h2, h3, h4⟩ := hinv
  refine ⟨by simp [h1], ?_, h3, h4⟩
  intro m hm
  rw [List.length_append, List.length_singleton] at hm
  rcases Nat.lt_succ_iff_lt_or_eq.mp hm with hm' | hm'
  · rw [lgetD_append_left _ _ _ hm', lgetD_append_left _ _ _ (h1 ▸ hm')]
    exact h2 m hm'
  · subst hm'
    rw [lgetD_concat_length, ← h1, lgetD_concat_length]
    exact hl

theorem copyInv_step_none {t0 : List LSet} {done : List Nat} {ids : List (Nat × Nat)}
    {tbl : List LSet} {sl : List Nat} {k : Nat}
    (hinv : CopyInv t0 done ids tbl sl) (hl : ids.lookup k = none) :
    CopyInv t0 (done ++ [k]) ((k, tbl.length) :: ids)
      (tbl ++ [t0.getD k ∅]) (sl ++ [tbl.length]) := by
  obtain ⟨h1, h2, h3, h4⟩ := hinv
  refine ⟨by simp [h1], ?_, ?_, ?_⟩
  · intro m hm
    rw [List.length_append, List.length_singleton] at hm
    rcases Nat.lt_succ_iff_lt_or_eq.mp hm with hm' | hm'
    · rw [lgetD_append_left _ _ _ hm', lgetD_append_left _ _ _ (h1 ▸ hm')]
      have h2m := h2 m hm'
      rw [lookup_cons_nat]
      by_cases he : done.getD m 0 = k
      · rw [he, hl] at h2m
        exact absurd h2m (by simp)
      · rw [if_neg he]
        exact h2m
    · subst hm'
      rw [lgetD_concat_length, ← h1, lgetD_concat_length, lookup_cons_nat, if_pos rfl]
  · intro k0 k2 h
    rw [lookup_cons_nat] at h
    by_cases he : k0 = k
    · rw [if_pos he] at h
      have hk2 := Option.some.inj h
      subst hk2
      constructor
      · simp
      · rw [lgetD_concat_length, he]
    · rw [if_neg he] at h
      obtain ⟨hb, hv⟩ := h3 k0 k2 h
      exact ⟨by simp [Nat.lt_succ_of_lt hb], by rw [lgetD_append_left _ _ _ hb]; exact hv⟩
  · intro k1 k2 k3 ha hb
    rw [lookup_cons_nat] at ha hb
    by_cases he1 : k1 = k
    · rw [if_pos he1] at ha
      by_cases he2 : k2 = k
      · rw [he1, he2]
      · rw [if_neg he2] at hb
        have h3b := (h3 k2 k3 hb).1
        rw [← Option.some.inj ha] at h3b
        exact absurd h3b (Nat.lt_irrefl _)
    · rw [if_neg he1] at ha
      by_cases he2 : k2 = k
      · rw [if_pos he2] at hb
        have h3a := (h3 k1 k3 ha).1
        rw [← Option.some.inj hb] at h3a
        exact absurd h3a (Nat.lt_irrefl _)
      · rw [if_neg he2] at hb
        exact h4 k1 k2 k3 ha hb

theorem copyFrom_inv (t0 : List LSet) (ks : List Nat) :
    ∀ (done : List Nat) (ids : List (Nat × Nat)) (tbl : List LSet) (sl : List Nat),
      CopyInv t0 done ids tbl sl →
      CopyInv t0 (done ++ ks) (copyFrom t0 ks ids tbl sl).1
        (copyFrom t0 ks ids tbl sl).2.1 (copyFrom t0 ks ids tbl sl).2.2 := by
  induction ks with
  | nil =>
    intro done ids tbl sl h
    simpa [copyFrom] using h
  | cons k ks ih =>
    intro done ids tbl sl h
    rw [List.append_cons]
    cases hl : ids.lookup k with
    | some k2 =>
      have h2 := ih (done ++ [k]) ids tbl (sl ++ [k2]) (copyInv_step_some h hl)
      simpa [copyFrom, hl] using h2
    | none =>
      have h2 := ih (done ++ [k]) _ _ _ (copyInv_step_none h hl)
      simpa [copyFrom, hl] using h2

theorem chain_copy_inv (c : Chain) :
    CopyInv c.table c.slots (copyFrom c.table c.slots [] [] []).1
      (copyFrom c.table c.slots [] [] []).2.1 (copyFrom c.table c.slots [] [] []).2.2 := by
  have h := copyFrom_inv c.table c.slots [] [] [] [] (copyInv_nil c.table)
  simpa using h

theorem chainCopy_slots_length (c : Chain) : c.copy.slots.length = c.slots.length :=
  (chain_copy_inv c).1

theorem chainCopy_slotSet (c : Chain) (i : Nat) (h : i < c.slots.length) :
    c.copy.slotSet i = c.slotSet i := by
  obtain ⟨h1, h2, h3, _⟩ := chain_copy_inv c
  exact (h3 _ _ (h2 i h)).2

theorem chainCopy_alias_iff (c : Chain) (i j : Nat)
    (hi : i < c.slots.length) (hj : j < c.slots.length) :
    (c.copy.slots.getD i 0 = c.copy.slots.getD j 0)
      ↔ (c.slots.getD i 0 = c.slots.getD j 0) := by
  obtain ⟨h1, h2, h3, h4⟩ := chain_copy_inv c
  show ((copyFrom c.table c.slots [] [] []).2.2.getD i 0
      = (copyFrom c.table c.slots [] [] []).2.2.getD j 0) ↔ _
  constructor
  · intro hcopy
    have ha := h2 i hi
    have hb := h2 j hj
    rw [← hcopy] at hb
    exact h4 _ _ _ ha hb
  · intro horig
    have ha := h2 i hi
    have hb := h2 j hj
    rw [horig] at ha
    rw [ha] at hb
    exact Option.some.inj hb

theorem foldl_union_congr (l : List Chain) (f g : Chain → LSet)
    (h : ∀ c ∈ l, f c = g c) :
    ∀ init : LSet,
      l.foldl (fun acc c => acc ∪ f c) init = l.foldl (fun acc c => acc ∪ g c) init := by
  induction l with
  | nil => intro init; rfl
  | cons c t ih =>
    intro init
    rw [List.foldl_cons, List.foldl_cons, h c (List.mem_cons_self c t)]
    exact ih (fun x hx => h x (List.mem_cons_of_mem c hx)) _

theorem peekSlot_copy (n : NFSM) (i : Nat)
    (hlen : ∀ c ∈ n.chains, c.slots.length = n.length) (hi : i < n.length) :
    n.copy.peekSlot i = n.peekSlot i := by
  show (n.chains.map Chain.copy).foldl (fun acc ch => acc ∪ ch.slotSet i) ∅
      = n.chains.foldl (fun acc ch => acc ∪ ch.slotSet i) ∅
  rw [List.foldl_map]
  exact foldl_union_congr n.chains (fun c => c.copy.slotSet i) (fun c => c.slotSet i)
    (fun c hc => chainCopy_slotSet c i (by rw [hlen c hc]; exact hi)) ∅

/-- Claim C6: copy preserves length and alphabet; it yields the same
peek_slot value at every position; and within each copied chain two
slots are the same set object exactly when they were in the original.
Since the embedding is pure, mutating the copy cannot change the
original, which is the remaining part of the claim. -/
theorem c6_copy_spec :
    ∀ n : NFSM,
      n.copy.length = n.length
      ∧ n.copy.alphabet = n.alphabet
      ∧ ((∀ c ∈ n.chains, c.slots.length = n.length) →
          ∀ i, i < n.length → n.copy.peekSlot i = n.peekSlot i)
      ∧ (∀ c ∈ n.chains,
          c.copy.slots.length = c.slots.length
          ∧ ∀ i j, i < c.slots.length → j < c.slots.length →
              (c.copy.slots.getD i 0 = c.copy.slots.getD j 0
                ↔ c.slots.getD i 0 = c.slots.getD j 0)) := by
  intro n
  refine ⟨rfl, rfl, ?_, ?_⟩
  · intro hlen i hi
    exact peekSlot_copy n i hlen hi
  · intro c _
    exact ⟨chainCopy_slots_length c, fun i j hi hj => chainCopy_alias_iff c i j hi hj⟩

/-- Witness for claim C6 at the back-reference machine. -/
theorem c6_copy_spec_witness :
    nBack.copy.peekSlot 0 = nBack.peekSlot 0
    ∧ ((⟨[abc], [0, 0]⟩ : Chain).copy.slots.getD 0 0
          = (⟨[abc], [0, 0]⟩ : Chain).copy.slots.getD 1 0
        ↔ (⟨[abc], [0, 0]⟩ : Chain).slots.getD 0 0
          = (⟨[abc], [0, 0]⟩ : Chain).slots.getD 1 0) :=
  ⟨(c6_copy_spec nBack).2.2.1 (by decide) 0 (by decide),
   ((c6_copy_spec ⟨2, abc, [⟨[abc], [0, 0]⟩]⟩).2.2.2 ⟨[abc], [0, 0]⟩ (by decide)).2
     0 1 (by decide) (by decide)⟩

theorem chainRun_none (ps : List (Nat × Char)) :
    ps.foldl (fun oc p => oc.bind (fun ch => chainStep ch p.1 {p.2})) none = none := by
  induction ps with
  | nil => rfl
  | cons p t ih => simpa [List.foldl_cons] using ih

/-- The fold of constrain_slot over a list of positions acts on every
chain independently: the surviving chains are the filterMap of the
per-chain run. -/
theorem matchFold_chains (ps : List (Nat × Char)) :
    ∀ m : NFSM,
      (ps.foldl (fun m p => m.constrainSlot p.1 {p.2}) m).chains
        = m.chains.filterMap (fun c => chainRun c ps) := by
  induction ps with
  | nil =>
    intro m
    simp [chainRun]
  | cons p t ih =>
    intro m
    rw [List.foldl_cons, ih (m.constrainSlot p.1 {p.2}), constrainSlot_chains,
      List.filterMap_filterMap]
    apply List.filterMap_congr
    intro c _
    show (chainStep c p.1 {p.2}).bind (fun c2 => chainRun c2 t) = chainRun c (p :: t)
    unfold chainRun
    rw [List.foldl_cons, Option.some_bind]
    cases hcs : chainStep c p.1 {p.2} with
    | some c2 => rw [Option.some_bind]
    | none =>
      rw [Option.none_bind, chainRun_none]

theorem foldl_inter_subset (l : List (Nat × Char)) :
    ∀ t : LSet, l.foldl (fun acc p => acc ∩ {p.2}) t ⊆ t := by
  induction l with
  | nil => intro t; exact Finset.Subset.refl t
  | cons p rest ih =>
    intro t
    rw [List.foldl_cons]
    exact (ih (t ∩ {p.2})).trans (Finset.inter_subset_left)

theorem interFold_singleton_nonempty (l : List (Nat × Char)) (a : Char) :
    ∀ t : LSet,
      ((l.foldl (fun acc p => acc ∩ {p.2}) t) ∩ {a}).Nonempty
        ↔ a ∈ t ∧ ∀ p ∈ l, p.2 = a := by
  induction l with
  | nil =>
    intro t
    simp [Finset.Nonempty]
  | cons p rest ih =>
    intro t
    rw [List.foldl_cons, ih (t ∩ {p.2})]
    constructor
    · rintro ⟨hat, hrest⟩
      rw [Finset.mem_inter, Finset.mem_singleton] at hat
      refine ⟨hat.1, fun q hq => ?_⟩
      rcases List.mem_cons.mp hq with h | h
      · rw [h]; exact hat.2.symm
      · exact hrest q h
    · rintro ⟨hat, hall⟩
      refine ⟨?_, fun q hq => hall q (List.mem_cons_of_mem p hq)⟩
      rw [Finset.mem_inter, Finset.mem_singleton]
      exact ⟨hat, (hall p (List.mem_cons_self p rest)).symm⟩

/-- After a surviving run, the slot indices are unchanged and every set
object holds its initial value intersected with all singleton
constraints that targeted a position carrying it. -/
theorem chainRun_some_spec (c : Chain) (ps : List (Nat × Char)) :
    ∀ c2, chainRun c ps = some c2 →
      c2.slots = c.slots ∧ c2.table.length = c.table.length
      ∧ ∀ k, c2.table.getD k ∅ = classFold c ps k := by
  induction ps using List.reverseRecOn with
  | nil =>
    intro c2 h
    have he := Option.some.inj h
    subst he
    exact ⟨rfl, rfl, fun k => by simp [classFold]⟩
  | append_singleton ps p ih =>
    intro c2 h
    rw [chainRun, List.foldl_append, List.foldl_cons, List.foldl_nil] at h
    cases hr : ps.foldl (fun oc p => oc.bind (fun ch => chainStep ch p.1 {p.2})) (some c) with
    | none =>
      rw [hr, Option.none_bind] at h
      exact absurd h (by simp)
    | some cm =>
      rw [hr, Option.some_bind] at h
      obtain ⟨hsl, htl, htb⟩ := ih cm hr
      unfold chainStep at h
      by_cases hs : ((cm.constrain p.1 {p.2}).slotSet p.1).Nonempty
      · rw [if_pos hs] at h
        have he := Option.some.inj h
        subst he
        have hcon : (cm.constrain p.1 {p.2}).table
            = cm.table.set (c.slots.getD p.1 0)
                (cm.table.getD (c.slots.getD p.1 0) ∅ ∩ {p.2}) := by
          rw [← hsl]; rfl
        refine ⟨by rw [constrain_slots, hsl], ?_, ?_⟩
        · rw [hcon, List.length_set, htl]
        · intro k
          rw [hcon]
          by_cases hk : k = c.slots.getD p.1 0
          · have hb : (c.slots.getD p.1 0 == k) = true := beq_iff_eq.mpr hk.symm
            have hcond : ([p].filter (fun q => c.slots.getD q.1 0 == k)) = [p] := by
              rw [@List.filter_cons_of_pos _ (fun q => c.slots.getD q.1 0 == k) p [] hb,
                List.filter_nil]
            rw [← hk]
            by_cases hlt : k < cm.table.length
            · rw [lgetD_set_eq _ _ _ _ hlt, htb]
              rw [classFold, classFold, List.filter_append, List.foldl_append,
                hcond, List.foldl_cons, List.foldl_nil]
            · have hge := Nat.le_of_not_lt hlt
              rw [List.set_eq_of_length_le hge]
              have hz : cm.table.getD k ∅ = ∅ := lgetD_oob _ _ hge
              rw [hz]
              rw [classFold, List.filter_append, List.foldl_append,
                hcond, List.foldl_cons, List.foldl_nil]
              have hz2 : classFold c ps k = ∅ := by rw [← htb]; exact hz
              rw [show (ps.filter (fun q => c.slots.getD q.1 0 == k)).foldl
                    (fun acc p => acc ∩ {p.2}) (c.table.getD k ∅) = classFold c ps k from rfl]
              rw [hz2, Finset.empty_inter]
          · have hb : (c.slots.getD p.1 0 == k) = false :=
              beq_eq_false_iff_ne.mpr (fun he => hk he.symm)
            have hcond : ([p].filter (fun q => c.slots.getD q.1 0 == k)) = [] := by
              rw [@List.filter_cons_of_neg _ (fun q => c.slots.getD q.1 0 == k) p []
                  (fun hq => absurd (hb.symm.trans hq) Bool.false_ne_true),
                List.filter_nil]
            rw [lgetD_set_ne _ _ _ (fun he => hk he.symm), htb]
            rw [classFold, classFold, List.filter_append, List.foldl_append,
              hcond, List.foldl_nil]
      · rw [if_neg hs] at h
        exact absurd h (by simp)

theorem chainOK_append_singleton (c : Chain) (ps : List (Nat × Char)) (p : Nat × Char) :
    chainOK c (ps ++ [p]) ↔
      chainOK c ps ∧ p.2 ∈ c.slotSet p.1
      ∧ ∀ q ∈ ps, c.slots.getD q.1 0 = c.slots.getD p.1 0 → q.2 = p.2 := by
  unfold chainOK
  constructor
  · rintro ⟨h1, h2⟩
    refine ⟨⟨fun q hq => h1 q (List.mem_append_left _ hq),
        fun q hq r hr hcls =>
          h2 q (List.mem_append_left _ hq) r (List.mem_append_left _ hr) hcls⟩,
      h1 p (List.mem_append_right _ (List.mem_singleton_self p)),
      fun q hq hcls =>
        h2 q (List.mem_append_left _ hq) p
          (List.mem_append_right _ (List.mem_singleton_self p)) hcls⟩
  · rintro ⟨⟨h1, h2⟩, hmem, hcl⟩
    constructor
    · intro q hq
      rcases List.mem_append.mp hq with h | h
      · exact h1 q h
      · rw [List.mem_singleton.mp h]; exact hmem
    · intro q hq r hr hcls
      rcases List.mem_append.mp hq with hq2 | hq2 <;>
        rcases List.mem_append.mp hr with hr2 | hr2
      · exact h2 q hq2 r hr2 hcls
      · rw [List.mem_singleton.mp hr2] at hcls ⊢
        exact hcl q hq2 hcls
      · rw [List.mem_singleton.mp hq2] at hcls ⊢
        exact (hcl r hr2 hcls.symm).symm
      · rw [List.mem_singleton.mp hq2, List.mem_singleton.mp hr2]

/-- A chain survives the singleton constraints of match exactly when
every constrained character lies in its slot and aliased positions
receive equal characters. -/
theorem chainRun_isSome_iff (c : Chain) (ps : List (Nat × Char)) :
    (chainRun c ps).isSome ↔ chainOK c ps := by
  induction ps using List.reverseRecOn with
  | nil =>
    constructor
    · intro _
      exact ⟨fun p hp => absurd hp (List.not_mem_nil p),
             fun p hp => absurd hp (List.not_mem_nil p)⟩
    · intro _
      rfl
  | append_singleton ps p ih =>
    rw [chainOK_append_singleton]
    rw [chainRun, List.foldl_append, List.foldl_cons, List.foldl_nil]
    cases hr : ps.foldl (fun oc p => oc.bind (fun ch => chainStep ch p.1 {p.2})) (some c) with
    | none =>
      rw [Option.none_bind]
      constructor
      · intro h
        exact absurd h (by simp)
      · rintro ⟨hok, _, _⟩
        have h2 := ih.mpr hok
        rw [chainRun, hr] at h2
        exact absurd h2 (by simp)
    | some cm =>
      rw [Option.some_bind]
      have hok : chainOK c ps := ih.mp (by rw [chainRun, hr]; rfl)
      obtain ⟨hsl, htl, htb⟩ := chainRun_some_spec c ps cm (by rw [chainRun]; exact hr)
      have hstep : (chainStep cm p.1 {p.2}).isSome
          ↔ ((cm.constrain p.1 {p.2}).slotSet p.1).Nonempty := by
        unfold chainStep
        by_cases hs : ((cm.constrain p.1 {p.2}).slotSet p.1).Nonempty
        · simp [hs]
        · simp [hs]
      rw [hstep, slotSet_constrain, if_pos rfl]
      have hval : cm.slotSet p.1 = classFold c ps (c.slots.getD p.1 0) := by
        rw [Chain.slotSet, hsl, htb]
      rw [hval, classFold, interFold_singleton_nonempty]
      constructor
      · rintro ⟨hmem, hall⟩
        refine ⟨hok, hmem, fun q hq hcls => ?_⟩
        refine hall q (List.mem_filter.mpr ⟨hq, ?_⟩)
        exact beq_iff_eq.mpr hcls
      · rintro ⟨-, hmem, hall⟩
        refine ⟨hmem, fun q hq => ?_⟩
        obtain ⟨hq2, hcls⟩ := List.mem_filter.mp hq
        exact hall q hq2 (beq_iff_eq.mp hcls)

theorem mem_enum_getD {s : List Char} {p : Nat × Char} (h : p ∈ s.enum) :
    p.1 < s.length ∧ s.getD p.1 'A' = p.2 := by
  have h2 := List.mem_enum_iff_getElem?.mp h
  have hlt : p.1 < s.length := by
    by_contra hge
    rw [List.getElem?_eq_none (Nat.le_of_not_lt hge)] at h2
    exact Option.noConfusion h2
  refine ⟨hlt, ?_⟩
  rw [List.getD_eq_getElem?_getD, h2]
  rfl

theorem getD_mem_enum (s : List Char) {i : Nat} (h : i < s.length) :
    (i, s.getD i 'A') ∈ s.enum := by
  rw [List.mem_enum_iff_getElem?]
  show s[i]? = some (s.getD i 'A')
  rw [List.getD_eq_getElem?_getD, List.getElem?_eq_getElem h]
  rfl

/-- The survival condition of a copied chain, over the enumerated
string, in indexed form on the original chain. -/
theorem chainOK_copy_enum (c : Chain) (s : List Char) (hc : c.slots.length = s.length) :
    chainOK c.copy s.enum ↔
      ((∀ i, i < s.length → s.getD i 'A' ∈ c.slotSet i)
        ∧ (∀ i j, i < s.length → j < s.length →
            c.slots.getD i 0 = c.slots.getD j 0 → s.getD i 'A' = s.getD j 'A')) := by
  unfold chainOK
  constructor
  · rintro ⟨h1, h2⟩
    constructor
    · intro i hi
      have hm := getD_mem_enum s hi
      have hv := h1 _ hm
      rwa [chainCopy_slotSet c i (by rw [hc]; exact hi)] at hv
    · intro i j hi hj hcls
      have hmi := getD_mem_enum s hi
      have hmj := getD_mem_enum s hj
      exact h2 _ hmi _ hmj
        ((chainCopy_alias_iff c i j (by rw [hc]; exact hi) (by rw [hc]; exact hj)).mpr hcls)
  · rintro ⟨h1, h2⟩
    constructor
    · intro p hp
      obtain ⟨hlt, hgd⟩ := mem_enum_getD hp
      rw [chainCopy_slotSet c p.1 (by rw [hc]; exact hlt), ← hgd]
      exact h1 p.1 hlt
    · intro p hp q hq hcls
      obtain ⟨hlp, hgp⟩ := mem_enum_getD hp
      obtain ⟨hlq, hgq⟩ := mem_enum_getD hq
      rw [← hgp, ← hgq]
      exact h2 p.1 q.1 hlp hlq
        ((chainCopy_alias_iff c p.1 q.1 (by rw [hc]; exact hlp) (by rw [hc]; exact hlq)).mp hcls)

/-- Claim C1, amended: match(s) is true exactly when the string has the
machine's length and some chain accepts it, where accepting demands both
that every character lie in its slot and that positions sharing one set
object receive equal characters.  The length hypothesis on the chains
holds for every machine the module builds, by the construction filter
and its preservation under constrain_slot. -/
theorem c1_match_chain_characterization :
    ∀ (n : NFSM) (s : List Char),
      (∀ c ∈ n.chains, c.slots.length = n.length) →
      (n.matchStr s = true ↔
        s.length = n.length
        ∧ ∃ c, c ∈ n.chains
            ∧ (∀ i, i < n.length → s.getD i 'A' ∈ c.slotSet i)
            ∧ (∀ i j, i < n.length → j < n.length →
                c.slots.getD i 0 = c.slots.getD j 0 → s.getD i 'A' = s.getD j 'A')) := by
  intro n s hlen
  by_cases hl : s.length = n.length
  · unfold NFSM.matchStr
    rw [if_neg (fun h => h hl)]
    show (!(List.foldl (fun m p => m.constrainSlot p.1 {p.2}) n.copy s.enum).chains.isEmpty)
        = true ↔ _
    rw [matchFold_chains s.enum n.copy]
    have hchains : n.copy.chains = n.chains.map Chain.copy := rfl
    constructor
    · intro h
      refine ⟨hl, ?_⟩
      have hne : n.copy.chains.filterMap (fun c => chainRun c s.enum) ≠ [] := by
        intro he
        rw [he] at h
        simp at h
      have hex : ∃ cc ∈ n.copy.chains, chainRun cc s.enum ≠ none := by
        by_contra hall
        push_neg at hall
        exact hne (List.filterMap_eq_nil_iff.mpr hall)
      obtain ⟨cc, hcc, hrun⟩ := hex
      rw [hchains] at hcc
      obtain ⟨c0, hc0, hcopy⟩ := List.mem_map.mp hcc
      subst hcopy
      have hok := (chainRun_isSome_iff c0.copy s.enum).mp
        (Option.ne_none_iff_isSome.mp hrun)
      have hcond := (chainOK_copy_enum c0 s (by rw [hlen c0 hc0, hl])).mp hok
      rw [hl] at hcond
      exact ⟨c0, hc0, hcond.1, hcond.2⟩
    · rintro ⟨-, c0, hc0, h1, h2⟩
      have hok : chainOK c0.copy s.enum := by
        rw [chainOK_copy_enum c0 s (by rw [hlen c0 hc0, hl]), hl]
        exact ⟨h1, h2⟩
      have hrun := (chainRun_isSome_iff c0.copy s.enum).mpr hok
      have hmem : c0.copy ∈ n.copy.chains := by
        rw [hchains]
        exact List.mem_map_of_mem Chain.copy hc0
      have hnn : chainRun c0.copy s.enum ≠ none := Option.ne_none_iff_isSome.mpr hrun
      cases hfm : n.copy.chains.filterMap (fun c => chainRun c s.enum) with
      | nil => exact absurd (List.filterMap_eq_nil_iff.mp hfm c0.copy hmem) hnn
      | cons a t => simp [hfm]
  · constructor
    · intro h
      unfold NFSM.matchStr at h
      rw [if_pos hl] at h
      exact absurd h (by simp)
    · rintro ⟨heq, -⟩
      exact absurd heq hl

/-- Witness for the amended claim C1 at the back-reference machine and
the string AA. -/
theorem c1_match_chain_characterization_witness :
    nBack.matchStr ['A', 'A'] = true ↔
      (['A', 'A'].length = nBack.length
        ∧ ∃ c, c ∈ nBack.chains
            ∧ (∀ i, i < nBack.length → ['A', 'A'].getD i 'A' ∈ c.slotSet i)
            ∧ (∀ i j, i < nBack.length → j < nBack.length →
                c.slots.getD i 0 = c.slots.getD j 0 →
                ['A', 'A'].getD i 'A' = ['A', 'A'].getD j 'A')) :=
  c1_match_chain_characterization nBack ['A', 'A'] (by decide)

theorem potential_set (st : List LSet) :
    ∀ (k : Nat) (v : LSet), k < st.length →
      potential (st.set k v) + (st.getD k ∅).card = potential st + v.card := by
  induction st with
  | nil =>
    intro k v hk
    exact absurd hk (Nat.not_lt_zero k)
  | cons x t ih =>
    intro k v hk
    cases k with
    | zero =>
      show potential (v :: t) + x.card = potential (x :: t) + v.card
      show v.card + potential t + x.card = x.card + potential t + v.card
      omega
    | succ k =>
      have hk2 : k < t.length := Nat.lt_of_succ_lt_succ hk
      show potential (x :: t.set k v) + (t.getD k ∅).card = potential (x :: t) + v.card
      show x.card + potential (t.set k v) + (t.getD k ∅).card
          = x.card + potential t + v.card
      have := ih k v hk2
      omega

theorem potential_set_le (st : List LSet) (k : Nat) (v : LSet)
    (hsub : v ⊆ st.getD k ∅) : potential (st.set k v) ≤ potential st := by
  by_cases hk : k < st.length
  · have h := potential_set st k v hk
    have hc := Finset.card_le_card hsub
    omega
  · rw [List.set_eq_of_length_le (Nat.le_of_not_lt hk)]

theorem potential_set_lt (st : List LSet) (k : Nat) (v : LSet) (hk : k < st.length)
    (hsub : v ⊆ st.getD k ∅) (hne : v ≠ st.getD k ∅) :
    potential (st.set k v) < potential st := by
  have h := potential_set st k v hk
  have hc := Finset.card_lt_card (Finset.ssubset_iff_subset_ne.mpr ⟨hsub, hne⟩)
  omega

theorem foldl_pres {α β : Type} {P : β → Prop} (f : β → α → β) (l : List α) (init : β)
    (h : P init) (hstep : ∀ b a, P b → P (f b a)) : P (l.foldl f init) := by
  induction l generalizing init with
  | nil => exact h
  | cons x t ih => exact ih (f init x) (hstep init x h)

theorem cellStep_inv (st0 : List LSet) (m : NFSM) (p : Nat × Nat)
    (a : List LSet × Bool) (h : P2Inv st0 a) : P2Inv st0 (cellStep a m p) := by
  obtain ⟨h1, h2, h3, h4⟩ := h
  have hsub : (a.1.getD p.2 ∅ ∩ m.peekSlot p.1) ⊆ a.1.getD p.2 ∅ :=
    Finset.inter_subset_left
  by_cases hk : p.2 < a.1.length
  · refine ⟨?_, ?_, ?_, ?_⟩
    · show (a.1.set p.2 _).length = st0.length
      rw [List.length_set, h1]
    · intro k
      show (a.1.set p.2 _).getD k ∅ ⊆ st0.getD k ∅
      by_cases hkk : p.2 = k
      · subst hkk
        rw [lgetD_set_eq _ _ _ _ hk]
        exact hsub.trans (h2 p.2)
      · rw [lgetD_set_ne _ _ _ hkk]
        exact h2 k
    · exact (potential_set_le a.1 p.2 _ hsub).trans h3
    · intro hf
      show potential (a.1.set p.2 _) < potential st0
      by_cases ha : a.2 = false
      · exact lt_of_le_of_lt (potential_set_le a.1 p.2 _ hsub) (h4 ha)
      · have ha2 : a.2 = true := by
          cases hab : a.2
          · exact absurd hab ha
          · rfl
        have hne : a.1.getD p.2 ∅ ∩ m.peekSlot p.1 ≠ a.1.getD p.2 ∅ := by
          intro he
          rw [show (cellStep a m p).2
              = (a.2 && decide (a.1.getD p.2 ∅ = a.1.getD p.2 ∅ ∩ m.peekSlot p.1)) from rfl]
            at hf
          rw [ha2, Bool.true_and, decide_eq_false_iff_not] at hf
          exact hf he.symm
        exact lt_of_lt_of_le (potential_set_lt a.1 p.2 _ hk hsub hne) h3
  · have hoob : a.1.getD p.2 ∅ = ∅ := lgetD_oob _ _ (Nat.le_of_not_lt hk)
    have hset : a.1.set p.2 (a.1.getD p.2 ∅ ∩ m.peekSlot p.1) = a.1 :=
      List.set_eq_of_length_le (Nat.le_of_not_lt hk)
    have hflag : (cellStep a m p).2 = a.2 := by
      show (a.2 && decide (a.1.getD p.2 ∅ = a.1.getD p.2 ∅ ∩ m.peekSlot p.1)) = a.2
      rw [hoob]
      simp
    refine ⟨?_, ?_, ?_, ?_⟩
    · show (a.1.set p.2 _).length = st0.length
      rw [hset]; exact h1
    · intro k
      show (a.1.set p.2 _).getD k ∅ ⊆ st0.getD k ∅
      rw [hset]; exact h2 k
    · show potential (a.1.set p.2 _) ≤ potential st0
      rw [hset]; exact h3
    · intro hf
      rw [hflag] at hf
      show potential (a.1.set p.2 _) < potential st0
      rw [hset]; exact h4 hf

theorem pass2_inv (s : DState) :
    P2Inv s.store (s.binds.foldl
      (fun a b => b.2.enum.foldl (fun a2 p => cellStep a2 b.1 p) a) (s.store, true)) := by
  apply foldl_pres
  · exact ⟨rfl, fun k => Finset.Subset.refl _, le_refl _, fun hf => absurd hf (by simp)⟩
  · intro a b ha
    apply foldl_pres
    · exact ha
    · intro a2 p ha2
      exact cellStep_inv s.store b.1 p a2 ha2

theorem dstep_store_inv (s : DState) : P2Inv s.store ((dstep s).1.store, (dstep s).2) :=
  pass2_inv (pass1 s)

theorem dstep_flag_false_potential (s : DState) (h : dstepFlag s = false) :
    potential (dstepState s).store < potential s.store :=
  (dstep_store_inv s).2.2.2 h

theorem driver_term_aux :
    ∀ (B : Nat) (s : DState), potential s.store ≤ B →
      ∃ t, t ≤ B ∧ dstepFlag (stepIter t s) = true := by
  intro B
  induction B with
  | zero =>
    intro s hp
    cases hf : dstepFlag s with
    | true => exact ⟨0, le_refl 0, hf⟩
    | false =>
      have hlt := dstep_flag_false_potential s hf
      omega
  | succ B ih =>
    intro s hp
    cases hf : dstepFlag s with
    | true => exact ⟨0, Nat.zero_le _, hf⟩
    | false =>
      have hlt := dstep_flag_false_potential s hf
      obtain ⟨t, ht, hflag⟩ := ih (dstepState s) (by omega)
      exact ⟨t + 1, Nat.succ_le_succ ht, hflag⟩

/-- Claim C7: one iteration of the driver loop never enlarges any cell,
and from any starting state the finished flag is reached within as many
iterations as the board potential, so from the initial board of 127
cells over the 26-letter alphabet at most 3302 iterations shrink
anything, after which the next full pass performs zero set changes. -/
theorem c7_propagation_monotone_terminates :
    (∀ (s : DState) (k : Nat), (dstepState s).store.getD k ∅ ⊆ s.store.getD k ∅)
    ∧ (∀ s : DState, ∃ t, t ≤ potential s.store ∧ dstepFlag (stepIter t s) = true)
    ∧ (∀ binds : List (NFSM × List Nat),
        potential (List.replicate 127 alphaAZ) = 3302
        ∧ ∃ t, t ≤ 3302 ∧ dstepFlag (stepIter t ⟨List.replicate 127 alphaAZ, binds⟩) = true) := by
  have hpot : potential (List.replicate 127 alphaAZ) = 3302 := by decide
  refine ⟨?_, ?_, ?_⟩
  · intro s k
    exact (dstep_store_inv s).2.1 k
  · intro s
    exact driver_term_aux (potential s.store) s (le_refl _)
  · intro binds
    refine ⟨hpot, ?_⟩
    have h := driver_term_aux 3302 ⟨List.replicate 127 alphaAZ, binds⟩ (le_of_eq hpot)
    exact h

theorem bal_shift (l : List Char) :
    ∀ b : Int, l.foldl (fun b c => b + pd c) b = b + bal l := by
  induction l with
  | nil =>
    intro b
    show b = b + 0
    omega
  | cons c t ih =>
    intro b
    show t.foldl (fun b c => b + pd c) (b + pd c) = b + bal (c :: t)
    rw [ih (b + pd c)]
    have hb : bal (c :: t) = pd c + bal t := by
      show t.foldl (fun b c => b + pd c) (0 + pd c) = pd c + bal t
      rw [ih (0 + pd c)]
      omega
    rw [hb]
    omega

theorem bal_cons (c : Char) (l : List Char) : bal (c :: l) = pd c + bal l := by
  show l.foldl (fun b c => b + pd c) (0 + pd c) = pd c + bal l
  rw [bal_shift l (0 + pd c)]
  omega

theorem bal_append (l r : List Char) : bal (l ++ r) = bal l + bal r := by
  show (l ++ r).foldl (fun b c => b + pd c) 0 = bal l + bal r
  rw [List.foldl_append, bal_shift r]
  rfl

/-- When the scan finds a top-level bar, the prefix has paren balance
cancelling the entry level. -/
theorem topSplit_balance :
    ∀ (cs : List Char) (lvl : Int) (l r : List Char),
      topSplit cs lvl = some (l, r) → cs = l ++ '|' :: r ∧ lvl + bal l = 0 := by
  intro cs
  induction cs with
  | nil =>
    intro lvl l r h
    exact absurd h (by simp [topSplit])
  | cons c rest ih =>
    intro lvl l r h
    simp only [topSplit] at h
    by_cases hc : c = '|' ∧ lvl + pd c = 0
    · rw [if_pos hc] at h
      obtain ⟨hl, hr⟩ := Prod.mk.inj (Option.some.inj h)
      subst hl
      subst hr
      constructor
      · rw [hc.1]
        rfl
      · have hpd : pd '|' = 0 := by decide
        have hc2 := hc.2
        rw [hc.1, hpd] at hc2
        have hbz : bal ([] : List Char) = 0 := rfl
        omega
    · rw [if_neg hc] at h
      cases hts : topSplit rest (lvl + pd c) with
      | none =>
        rw [hts] at h
        exact absurd h (by simp)
      | some pr =>
        obtain ⟨l2, r2⟩ := pr
        rw [hts] at h
        obtain ⟨hl, hr⟩ := Prod.mk.inj (Option.some.inj h)
        obtain ⟨hcs, hbl⟩ := ih (lvl + pd c) l2 r2 hts
        subst hl
        subst hr
        constructor
        · rw [hcs]
          rfl
        · have hbc := bal_cons c l2
          omega

/-- A regex with nonzero paren balance never parses successfully: either
the scan raises the unbalanced error, or a top-level bar passes the
imbalance to one of the two sides. -/
theorem parse_unbalanced_no_ok :
    ∀ (fuel : Nat) (cs : List Char) (alf : Finset Char) (L : Nat),
      bal cs ≠ 0 → ∀ res, parseRegex alf L fuel cs ≠ .ok res := by
  intro fuel
  induction fuel with
  | zero =>
    intro cs alf L hb res
    simp [parseRegex]
  | succ fuel ih =>
    intro cs alf L hb res
    cases cs with
    | nil =>
      exact absurd rfl hb
    | cons c rest =>
      show parseRegex alf L (fuel + 1) (c :: rest) ≠ .ok res
      cases hts : topSplit (c :: rest) 0 with
      | some pr =>
        obtain ⟨l, r⟩ := pr
        obtain ⟨hcs, hbl⟩ := topSplit_balance (c :: rest) 0 l r hts
        have hbr : bal r ≠ 0 := by
          rw [hcs, bal_append, bal_cons] at hb
          have hpd : pd '|' = 0 := by decide
          rw [hpd] at hb
          intro he
          rw [he] at hb
          omega
        simp only [parseRegex, hts]
        cases hl : parseRegex alf L fuel l with
        | error e => simp
        | ok ls =>
          cases hr : parseRegex alf L fuel r with
          | error e => simp [hr]
          | ok rs => exact absurd hr (ih r alf L hbr rs)
      | none =>
        simp only [parseRegex, hts]
        rw [if_pos hb]
        simp

/-- Claim C8, amended: construction fails on every regex whose paren
balance is nonzero; it fails on an unknown character reached in atom
position; but a character outside the alphabet inside a bracket class is
accepted (see the counterexample), and a regex that cannot produce any
chain of the requested length constructs an empty chain list without any
error. -/
theorem c8_failure_modes_amended :
    (∀ (cs : List Char) (L : Nat) (alf : Finset Char) (fuel : Nat), bal cs ≠ 0 →
        ∀ n : NFSM, NFSM.mk? cs L alf fuel ≠ .ok n)
    ∧ NFSM.mk? "zB".toList 2 abc 60 = .error (.unknownChar 'z')
    ∧ NFSM.mk? "(A".toList 1 abc 60 = .error .unbalanced
    ∧ NFSM.mk? "A)".toList 1 abc 60 = .error .unbalanced
    ∧ NFSM.mk? "AA".toList 3 abc 60 = .ok ⟨3, abc, []⟩ := by
  refine ⟨?_, by decide, by decide, by decide, by decide⟩
  intro cs L alf fuel hb n h
  unfold NFSM.mk? at h
  cases hp : parseRegex alf L fuel cs with
  | error e =>
    rw [hp] at h
    exact absurd h (by simp)
  | ok pres =>
    exact parse_unbalanced_no_ok fuel cs alf L hb pres hp

/-- Witness for the amended claim C8 at the unterminated group. -/
theorem c8_failure_modes_amended_witness :
    NFSM.mk? "(A".toList 1 abc 60 ≠ .ok ⟨1, abc, []⟩ :=
  c8_failure_modes_amended.1 "(A".toList 1 abc 60 (by decide) ⟨1, abc, []⟩
